import Mathlib

/-!
Verification of the core logic of the Maps_Reimagined repository.

The embedded functions follow `src/integral1.js` and `src/script.js`:

* `getNearest` — the linear argmin scan over candidate facilities
  (`getNearest` in both files);
* `distanceKm` — the haversine great-circle distance (identical in both
  files), modelled over the real numbers;
* `normalize`, `calculateScoresOn`, `microMarketData`, `businessCategories`
  — the micro-market scorer (`calculateScores` in `integral1.js`);
* `findPolygonForPincode` — the pincode-polygon scan (`script.js`);
* `classifyTransitPoints` — the metro/bus classification loop inside
  `loadGeoJSONsForTransit` (`integral1.js`).

JavaScript numbers that can be `NaN` or `Infinity` in a way that matters to
the control flow (the running minimum of the nearest-facility scan) are
modelled by `JsNum`; all arithmetic that the source performs on plain finite
data (the scorer) is modelled over `ℚ`, and the transcendental haversine
formula over `ℝ`.
-/

namespace MapsReimagined

/-- Model of the JavaScript numbers relevant to the nearest-facility scan:
`NaN`, `Infinity`, `-Infinity` and finite values (modelled as rationals).
Only the comparison `<` is needed by the scan. -/
inductive JsNum where
  | nan : JsNum
  | pinf : JsNum
  | ninf : JsNum
  | fin (q : ℚ) : JsNum
deriving DecidableEq

/-- IEEE-754 / JavaScript `<` on `JsNum`: every comparison with `NaN` is
false; `-Infinity < finite < Infinity`; finite values compare as rationals. -/
def JsNum.lt : JsNum → JsNum → Bool
  | .nan, _ => false
  | _, .nan => false
  | .ninf, .ninf => false
  | .ninf, _ => true
  | .fin _, .ninf => false
  | .fin a, .fin b => a < b
  | .fin _, .pinf => true
  | .pinf, _ => false

/-- One iteration of the `list.forEach` body of `getNearest`
(`integral1.js` line 80-83, `script.js` line 243-246): compute the distance
`d` of the current candidate and update `(best, min)` when `d < min`.
The distance computation `distanceKm(lat, lng, s.lat, s.lng)` is abstracted
as the function `dist` of the candidate, so that the scan's behaviour can be
stated for every resulting family of JavaScript number values (finite values
as well as `NaN`). -/
def nearStep {α : Type} (dist : α → JsNum) (acc : Option α × JsNum) (s : α) :
    Option α × JsNum :=
  let d := dist s
  if JsNum.lt d acc.2 then (some s, d) else acc

/-- `getNearest(list, lat, lng)` from `integral1.js` lines 77-85 /
`script.js` lines 240-248: return `null` for an empty list, otherwise scan
the list with `best = null, min = Infinity`, updating on `d < min`, and
return `{station: best, distance_km: min}` when `best` is non-null, else
`null`. -/
def getNearest {α : Type} (dist : α → JsNum) (list : List α) :
    Option (α × JsNum) :=
  if list.isEmpty then none
  else
    let st := list.foldl (nearStep dist) ((none : Option α), JsNum.pinf)
    match st.1 with
    | some best => some (best, st.2)
    | none => none

/-- Degree-to-radian conversion `toRad` used by `distanceKm`. -/
noncomputable def toRad (v : ℝ) : ℝ := v * Real.pi / 180

open Classical in
/-- JavaScript `Math.atan2(y, x)` over the reals (signed zeros do not exist
in `ℝ`, so `atan2 0 0 = 0`).  The symmetry proof below never needs to unfold
this definition: it only needs that both sides apply it to equal
arguments. -/
noncomputable def atan2 (y x : ℝ) : ℝ :=
  if 0 < x then Real.arctan (y / x)
  else if x < 0 then
    (if 0 ≤ y then Real.arctan (y / x) + Real.pi
     else Real.arctan (y / x) - Real.pi)
  else
    (if 0 < y then Real.pi / 2
     else if y < 0 then -(Real.pi / 2)
     else 0)

/-- The haversine intermediate
`a = sin²(dLat/2) + cos(toRad lat1) · cos(toRad lat2) · sin²(dLon/2)`
of `distanceKm` (`integral1.js` line 73 / `script.js` line 236). -/
noncomputable def haverA (lat1 lon1 lat2 lon2 : ℝ) : ℝ :=
  Real.sin (toRad (lat2 - lat1) / 2) ^ 2 +
    Real.cos (toRad lat1) * Real.cos (toRad lat2) *
      Real.sin (toRad (lon2 - lon1) / 2) ^ 2

/-- `distanceKm(lat1, lon1, lat2, lon2)` from `integral1.js` lines 68-75 /
`script.js` lines 231-238: `R * 2 * atan2(sqrt a, sqrt (1-a))` with
`R = 6371`. -/
noncomputable def distanceKm (lat1 lon1 lat2 lon2 : ℝ) : ℝ :=
  6371 * 2 *
    atan2 (Real.sqrt (haverA lat1 lon1 lat2 lon2))
      (Real.sqrt (1 - haverA lat1 lon1 lat2 lon2))

/-- `listStartsWith s t`: the character list `t` is a prefix of `s`. -/
def listStartsWith : List Char → List Char → Bool
  | _, [] => true
  | [], _ :: _ => false
  | a :: s, b :: t => a == b && listStartsWith s t

/-- `listContainsSub s sub`: `sub` occurs as a contiguous sublist of `s`. -/
def listContainsSub : List Char → List Char → Bool
  | [], sub => sub.isEmpty
  | a :: t, sub => listStartsWith (a :: t) sub || listContainsSub t sub

/-- JavaScript `s.includes(sub)`: substring containment. -/
def strIncludes (s sub : String) : Bool :=
  listContainsSub s.toList sub.toList

/-- Whitespace as removed by JavaScript `String.prototype.trim` (the data
in this repository only ever contains the plain space among these). -/
def wsChar (c : Char) : Bool :=
  c == ' ' || c == '\t' || c == '\n' || c == '\r'

/-- JavaScript `s.trim()` on the character list of `s`: drop leading and
trailing whitespace. -/
def trimList (l : List Char) : List Char :=
  ((l.dropWhile wsChar).reverse.dropWhile wsChar).reverse

/-- ASCII lowercasing of one character (JavaScript `toLowerCase`; the
property values in this repository's datasets are ASCII). -/
def lowerChar (c : Char) : Char :=
  if 65 ≤ c.toNat ∧ c.toNat ≤ 90 then Char.ofNat (c.toNat + 32) else c

/-- JavaScript `s.toLowerCase()` on the character list of `s`. -/
def toLowerList (l : List Char) : List Char :=
  l.map lowerChar

/-- JavaScript `values.join(' ')` on character lists: interleave a single
space between consecutive entries. -/
def joinSpace : List (List Char) → List Char
  | [] => []
  | [x] => x
  | x :: y :: t => x ++ (' ' :: joinSpace (y :: t))

/-- A business-category priority weight profile
(`businessCategories` values, `integral1.js` lines 27-45). -/
structure Weights where
  talent : ℚ
  cost : ℚ
  procurement : ℚ
  timing : ℚ
deriving DecidableEq

/-- The `businessCategories` object of `integral1.js` lines 27-45, as an
association list keyed by the exact category name.  `List.lookup` compares
keys by exact, case-sensitive string equality and models the
**own-property** part of the JavaScript access
`businessCategories[businessType]`.  A bare JavaScript property access
additionally reaches the `Object.prototype` chain when the key is absent
from the object itself; that part is modelled by
`businessCategoriesAccess` / `calculateScoresJs` below. -/
def businessCategories : List (String × Weights) :=
  [("Grocery", ⟨0.2, 0.3, 0.35, 0.15⟩),
   ("Restaurant", ⟨0.35, 0.2, 0.25, 0.2⟩),
   ("Cafe", ⟨0.3, 0.25, 0.2, 0.25⟩),
   ("Retail Store", ⟨0.25, 0.3, 0.3, 0.15⟩),
   ("Supermarket", ⟨0.2, 0.25, 0.4, 0.15⟩),
   ("Pharmacy", ⟨0.25, 0.3, 0.35, 0.1⟩),
   ("Gym", ⟨0.4, 0.25, 0.15, 0.2⟩),
   ("Fitness Center", ⟨0.45, 0.25, 0.1, 0.2⟩),
   ("Salon", ⟨0.4, 0.3, 0.15, 0.15⟩),
   ("Spa", ⟨0.45, 0.25, 0.15, 0.15⟩),
   ("Electronics Store", ⟨0.3, 0.3, 0.3, 0.1⟩),
   ("Clothing Store", ⟨0.3, 0.3, 0.25, 0.15⟩),
   ("Bakery", ⟨0.35, 0.25, 0.3, 0.1⟩),
   ("Bookstore", ⟨0.25, 0.35, 0.25, 0.15⟩),
   ("Medical Clinic", ⟨0.5, 0.25, 0.15, 0.1⟩),
   ("Hospital", ⟨0.45, 0.2, 0.25, 0.1⟩),
   ("School", ⟨0.5, 0.3, 0.1, 0.1⟩)]

/-- A micro-market record (`microMarketData` rows, `integral1.js` lines
48-59).  All numeric attributes are exact decimal literals in the source and
are modelled as rationals. -/
structure MicroMarket where
  name : String
  rent : ℚ
  vacancy : ℚ
  absorption : ℚ
  stock : ℚ
  metroDistanceKm : ℚ
  busDistanceKm : ℚ
  rating : ℚ
  college : ℚ
  corporate : ℚ
  timing : String
  timingDetail : String
deriving DecidableEq

/-- The fixed `microMarketData` table of `integral1.js` lines 48-59. -/
def microMarketData : List MicroMarket :=
  [⟨"Delhi CBD (Connaught Place)", 284.45, 18.3, 0.05, 1.53, 0.5, 0.2, 4.5, 4, 5,
    "Standard B2B Day (10am-7pm)",
    "Efficiency: 11:30 am - 5:00 pm. Aligns with government/finance sectors."⟩,
   ⟨"Cyber City (Gurugram)", 135.0, 2.2, 0.1, 13.99, 1.2, 0.6, 4.7, 3, 5,
    "Corporate B2B Day (9am-6pm)",
    "Efficiency: 10:00 am - 5:00 pm. Structured corporate environment."⟩,
   ⟨"South-East Delhi (Nehru Place)", 115.6, 13.0, 0.08, 7.09, 0.8, 0.3, 3.8, 5, 4,
    "Retail/Tech Day (11am-8pm)",
    "Efficiency: 3:00 pm - 8:00 pm. Higher evening traffic."⟩,
   ⟨"Noida Expressway (Sect 125/135)", 75.0, 12.0, 0.85, 10.5, 4.0, 2.5, 3.5, 4, 4,
    "Tech/Flex Day (10am-7pm)",
    "Efficiency: 11:00 am - 6:00 pm. Hybrid-friendly environment."⟩,
   ⟨"Golf Course Road (Gurugram)", 110.5, 11.5, 0.35, 5.5, 2.0, 0.8, 4.5, 2, 5,
    "Corporate B2B Day (9am-6pm)",
    "Efficiency: 10:00 am - 5:00 pm. Premium corporate location."⟩,
   ⟨"Sector 62 (Noida)", 85.5, 16.0, 0.45, 4.5, 3.2, 1.0, 4.1, 5, 3,
    "Retail/Tech Day (11am-8pm)",
    "Efficiency: 3:00 pm - 8:00 pm. Tech hub with talent pool."⟩,
   ⟨"Sector 16 (Noida)", 99.0, 10.5, 0.1, 2.0, 1.1, 0.4, 4.0, 5, 3,
    "Retail/Tech Day (11am-8pm)",
    "Efficiency: 3:00 pm - 8:00 pm. Established market."⟩,
   ⟨"Sector 18 (Noida)", 120.0, 14.0, 0.05, 0.9, 1.4, 0.5, 4.4, 4, 4,
    "Retail/Tech Day (11am-8pm)",
    "Efficiency: 3:00 pm - 8:00 pm. Prime retail location."⟩,
   ⟨"Laxmi Nagar (East Delhi)", 82.0, 9.0, 0.15, 0.7, 0.6, 0.2, 3.7, 5, 2,
    "Retail/Tech Day (11am-8pm)",
    "Efficiency: 3:00 pm - 8:00 pm. High footfall area."⟩,
   ⟨"Central Noida (Sector 58/63)", 70.0, 22.0, 0.6, 3.8, 3.8, 1.8, 3.6, 4, 4,
    "Tech/Flex Day (10am-7pm)",
    "Efficiency: 11:00 am - 6:00 pm. Growing market."⟩]

/-- `normalize(value, min, max, inverse)` from `integral1.js` lines 62-66:
return `0.5` when `max === min`, otherwise `(value-min)/(max-min)`, flipped
to `1 - normalized` when `inverse` (the source defaults `inverse` to
`false`; every call site is modelled with the flag written explicitly). -/
def normalize (value mn mx : ℚ) (inverse : Bool) : ℚ :=
  if mx = mn then 0.5
  else
    let normalized := (value - mn) / (mx - mn)
    if inverse then 1 - normalized else normalized

/-- `Math.min(...data.map(f))` (`integral1.js` lines 99-110).  `Math.min`
of an empty argument list is `Infinity` in JavaScript; that case is
unreachable in the scorer (no market is scored when the table is empty), so
it is modelled by the junk value `0`. -/
def minOf (data : List MicroMarket) (f : MicroMarket → ℚ) : ℚ :=
  match data with
  | [] => 0
  | x :: t => (t.map f).foldl min (f x)

/-- `Math.max(...data.map(f))` (`integral1.js` lines 99-110); empty case as
in `minOf`. -/
def maxOf (data : List MicroMarket) (f : MicroMarket → ℚ) : ℚ :=
  match data with
  | [] => 0
  | x :: t => (t.map f).foldl max (f x)

/-- `metroAccess = normalize(market.metroDistanceKm, minMetroDist,
maxMetroDist, true)` (`integral1.js` line 113). -/
def metroAccess (data : List MicroMarket) (m : MicroMarket) : ℚ :=
  normalize m.metroDistanceKm (minOf data (·.metroDistanceKm))
    (maxOf data (·.metroDistanceKm)) true

/-- `busAccess = normalize(market.busDistanceKm, minBusDist, maxBusDist,
true)` (`integral1.js` line 114). -/
def busAccess (data : List MicroMarket) (m : MicroMarket) : ℚ :=
  normalize m.busDistanceKm (minOf data (·.busDistanceKm))
    (maxOf data (·.busDistanceKm)) true

/-- `normalize(market.college, 1, 5)` (`integral1.js` line 116): fixed
bounds, not the table's min/max. -/
def collegeNorm (m : MicroMarket) : ℚ := normalize m.college 1 5 false

/-- `normalize(market.rating, 2.8, 4.7)` (`integral1.js` lines 118 and
133): fixed bounds, not the table's min/max. -/
def ratingNorm (m : MicroMarket) : ℚ := normalize m.rating 2.8 4.7 false

/-- `normalize(market.corporate, 1, 5)` (`integral1.js` line 129): fixed
bounds, not the table's min/max. -/
def corporateNorm (m : MicroMarket) : ℚ := normalize m.corporate 1 5 false

/-- `normalize(market.rent, minRent, maxRent, true)` (`integral1.js` line
122). -/
def rentNorm (data : List MicroMarket) (m : MicroMarket) : ℚ :=
  normalize m.rent (minOf data (·.rent)) (maxOf data (·.rent)) true

/-- `normalize(market.vacancy, minVacancy, maxVacancy, true)`
(`integral1.js` line 123). -/
def vacancyNorm (data : List MicroMarket) (m : MicroMarket) : ℚ :=
  normalize m.vacancy (minOf data (·.vacancy)) (maxOf data (·.vacancy)) true

/-- `normalize(market.absorption, minAbsorption, maxAbsorption)`
(`integral1.js` line 127). -/
def absorptionNorm (data : List MicroMarket) (m : MicroMarket) : ℚ :=
  normalize m.absorption (minOf data (·.absorption))
    (maxOf data (·.absorption)) false

/-- `normalize(market.stock, minStock, maxStock)` (`integral1.js` line
128). -/
def stockNorm (data : List MicroMarket) (m : MicroMarket) : ℚ :=
  normalize m.stock (minOf data (·.stock)) (maxOf data (·.stock)) false

/-- The nine normalized attribute values that `calculateScores` computes
for market `m` of table `data` (`integral1.js` lines 112-134), each named
by the helper definitions above, which are exactly the ones `scoreMarket`
combines. -/
def normalizedValues (data : List MicroMarket) (m : MicroMarket) : List ℚ :=
  [collegeNorm m, metroAccess data m, busAccess data m, ratingNorm m,
   rentNorm data m, vacancyNorm data m, absorptionNorm data m,
   stockNorm data m, corporateNorm m]

/-- A scored market: the spread `{...market, talentScore, costScore,
procurementScore, timingScore, totalScore, normalizedScore}` built at
`integral1.js` line 138. -/
structure ScoredMarket where
  market : MicroMarket
  talentScore : ℚ
  costScore : ℚ
  procurementScore : ℚ
  timingScore : ℚ
  totalScore : ℚ
  normalizedScore : ℚ
deriving DecidableEq

/-- The body of the `microMarketData.map` callback of `calculateScores`
(`integral1.js` lines 112-139): the four weighted sub-scores and the
total. -/
def scoreMarket (w : Weights) (data : List MicroMarket) (m : MicroMarket) :
    ScoredMarket :=
  let metroA := metroAccess data m
  let busA := busAccess data m
  let talentScore :=
    (collegeNorm m * 0.45 + ((metroA * 0.6) + (busA * 0.4)) * 0.35 +
      ratingNorm m * 0.2) * w.talent
  let costScore :=
    (rentNorm data m * 0.7 + vacancyNorm data m * 0.3) * w.cost
  let procurementScore :=
    (absorptionNorm data m * 0.4 + stockNorm data m * 0.3 +
      corporateNorm m * 0.3) * w.procurement
  let timingScore := ((metroA * 0.5) + (ratingNorm m * 0.5)) * w.timing
  let totalScore := talentScore + costScore + procurementScore + timingScore
  ⟨m, talentScore, costScore, procurementScore, timingScore, totalScore,
    totalScore * 100⟩

/-- `scoredMarkets = microMarketData.map(...)` (`integral1.js` line 112),
before sorting. -/
def scoredMarkets (data : List MicroMarket) (w : Weights) :
    List ScoredMarket :=
  data.map (scoreMarket w data)

/-- The sort order of `scoredMarkets.sort((a, b) => b.totalScore -
a.totalScore)` (`integral1.js` line 141): `a` sorts no later than `b`
exactly when the comparator is `≤ 0`, i.e. `b.totalScore ≤ a.totalScore`
(descending by total score). -/
def scoreGE (a b : ScoredMarket) : Prop := b.totalScore ≤ a.totalScore

instance : DecidableRel scoreGE :=
  fun a b => inferInstanceAs (Decidable (b.totalScore ≤ a.totalScore))

instance : IsTotal ScoredMarket scoreGE :=
  ⟨fun a b => le_total b.totalScore a.totalScore⟩

instance : IsTrans ScoredMarket scoreGE :=
  ⟨fun _ _ _ h1 h2 => le_trans h2 h1⟩

/-- `calculateScores(businessType)` of `integral1.js` lines 88-142,
with the table it reads (`microMarketData` in the source) made an explicit
parameter `data`, restricted to the **own-property** lookup: score every
market with the looked-up weight profile and sort descending by
`totalScore`; `none` when the key is not an own key of
`businessCategories`.  ECMAScript 2019 requires `Array.prototype.sort` to
be stable, so the sort is modelled by the stable `List.insertionSort` with
the comparator's order `scoreGE`.  The full JavaScript property-access
semantics — where an absent key naming an `Object.prototype` member finds
a truthy inherited function instead of `undefined` — is modelled by
`calculateScoresJs` below; the two agree on every key present in the
table, the only case the sortedness/stability theorem consumes. -/
def calculateScoresOn (data : List MicroMarket) (businessType : String) :
    Option (List ScoredMarket) :=
  match List.lookup businessType businessCategories with
  | none => none
  | some w => some (List.insertionSort scoreGE (scoredMarkets data w))

/-- The member names a plain JavaScript object literal inherits from
`Object.prototype`; a bare property access with one of these keys on an
object that does not shadow them yields the inherited function (or, for
`__proto__`, the prototype object) — a truthy value, not `undefined`. -/
def objectPrototypeKeys : List String :=
  ["constructor", "hasOwnProperty", "isPrototypeOf", "propertyIsEnumerable",
   "toLocaleString", "toString", "valueOf", "__defineGetter__",
   "__defineSetter__", "__lookupGetter__", "__lookupSetter__", "__proto__"]

/-- Outcome of the JavaScript property access
`businessCategories[businessType]` (`integral1.js` line 89): an own key
yields its weight profile; an absent key naming an `Object.prototype`
member yields a truthy inherited function; any other absent key yields
`undefined`. -/
inductive JsProp where
  | own (w : Weights) : JsProp
  | inheritedFn : JsProp
  | undef : JsProp

/-- The access `businessCategories[businessType]` with the prototype
chain. -/
def businessCategoriesAccess (businessType : String) : JsProp :=
  match List.lookup businessType businessCategories with
  | some w => JsProp.own w
  | none =>
    if businessType ∈ objectPrototypeKeys then JsProp.inheritedFn
    else JsProp.undef

/-- Observable result of `calculateScores`: the `null` signal, a properly
scored list, or — when the weight lookup found a truthy inherited function
so that every `weights.talent`, `weights.cost`, ... is `undefined` — a
list of records all of whose score fields are `NaN`.  `NaN` is not
representable in the `ℚ`-valued `ScoredMarket`, so that outcome is
represented by the constructor `nanScored` carrying the markets in the
returned order (the sort comparator evaluates to `NaN` on every pair,
which `SortCompare` coerces to `+0`, so the stable sort leaves the input
order unchanged). -/
inductive ScoresOutcome where
  | nullResult : ScoresOutcome
  | scored (l : List ScoredMarket) : ScoresOutcome
  | nanScored (markets : List MicroMarket) : ScoresOutcome

/-- `calculateScores(businessType)` of `integral1.js` lines 88-142 with
the full JavaScript property-access semantics: the guard
`if (!weights) return null` fires only when the access yields the falsy
`undefined`; a truthy inherited `Object.prototype` function passes the
guard and produces the `NaN`-scored list. -/
def calculateScoresJs (data : List MicroMarket) (businessType : String) :
    ScoresOutcome :=
  match businessCategoriesAccess businessType with
  | JsProp.own w =>
    ScoresOutcome.scored (List.insertionSort scoreGE (scoredMarkets data w))
  | JsProp.inheritedFn => ScoresOutcome.nanScored data
  | JsProp.undef => ScoresOutcome.nullResult

/-- `calculateScores` as the source calls it: on the fixed
`microMarketData` table, with full access semantics. -/
def calculateScores (businessType : String) : ScoresOutcome :=
  calculateScoresJs microMarketData businessType

/-- A pincode polygon feature: its `properties` bag, with every value in
its JavaScript string form `String(props[key])` (the match in the source
only ever inspects that string form). -/
structure PolygonFeature where
  props : List (String × String)
deriving DecidableEq

/-- The per-layer match test of `findPolygonForPincode` (`script.js` lines
214-221): some property value, trimmed, equals the pincode exactly or
contains it as a substring. -/
def matchesPincode (pincode : String) (f : PolygonFeature) : Bool :=
  f.props.any (fun kv =>
    let v := trimList kv.2.toList
    v == pincode.toList || listContainsSub v pincode.toList)

/-- `findPolygonForPincode(pincode)` of `script.js` lines 206-228, over an
explicit list of polygon features (the source iterates the Leaflet layer
group with `eachLayer`, whose iteration order is insertion order).  The
`return` inside the `eachLayer` callback only exits the callback for the
current layer, not the whole loop, so `found` is overwritten by every later
matching layer: the fold keeps the **last** match. -/
def findPolygonForPincode (pincode : String) (polys : List PolygonFeature) :
    Option PolygonFeature :=
  polys.foldl
    (fun found layer =>
      if matchesPincode pincode layer then some layer else found)
    none

/-- A point feature of the points GeoJSON: its `properties` bag (values in
string form), its `geometry.type`, and its `geometry.coordinates` array.
`Array.isArray(geom.coordinates)` is always true in this model because the
field has list type. -/
structure PointFeature where
  props : List (String × String)
  geomType : String
  coords : List ℚ
deriving DecidableEq

/-- A detected transit stop `{name, lat, lng}` as pushed by
`loadGeoJSONsForTransit` (`integral1.js` lines 260-261); the `props` field
of the pushed object is dropped here (it is never read afterwards). -/
structure TransitStop where
  name : String
  lat : ℚ
  lng : ℚ
deriving DecidableEq

def pointTypeStr : String := "Point"

def metroStr : String := "metro"

def busStr : String := "bus"

def nameKey : String := "name"

def labelKey : String := "label"

/-- JavaScript `props[key]` as used in a `||` chain: a missing key and the
empty string are both falsy. -/
def propOr (props : List (String × String)) (key : String) : Option String :=
  match List.lookup key props with
  | some v => if v = "" then none else some v
  | none => none

/-- `props.name || props.label || dflt` (`integral1.js` lines 260-261). -/
def facilityName (props : List (String × String)) (dflt : String) : String :=
  match propOr props nameKey with
  | some v => v
  | none =>
    match propOr props labelKey with
    | some v => v
    | none => dflt

/-- The stop object pushed for a point feature: `lng, lat` destructured
from `geom.coordinates` as its first two entries (`integral1.js` line
258). -/
def mkStop (f : PointFeature) (dflt : String) : TransitStop :=
  ⟨facilityName f.props dflt, f.coords.getD 1 0, f.coords.getD 0 0⟩

/-- `Object.values(props).join(' ').toLowerCase()` (`integral1.js` line
259), as a character list. -/
def joinedPropsLower (f : PointFeature) : List Char :=
  toLowerList (joinSpace (f.props.map (fun kv => kv.2.toList)))

/-- One iteration of the `pts.json.features.forEach` classification body of
`loadGeoJSONsForTransit` (`integral1.js` lines 253-263): skip non-`Point`
geometries, then push onto the metro list when the lowercased joined
property text contains `"metro"` and onto the bus list when it contains
`"bus"` — both pushes happen for a feature whose text contains both. -/
def transitStep (acc : List TransitStop × List TransitStop)
    (f : PointFeature) : List TransitStop × List TransitStop :=
  if f.geomType = pointTypeStr then
    let text := joinedPropsLower f
    let acc1 :=
      if listContainsSub text metroStr.toList then
        (acc.1 ++ [mkStop f metroStr], acc.2)
      else acc
    if listContainsSub text busStr.toList then
      (acc1.1, acc1.2 ++ [mkStop f busStr])
    else acc1
  else acc

/-- The metro/bus detection loop of `loadGeoJSONsForTransit`
(`integral1.js` lines 250-264): starting from two empty lists, fold
`transitStep` over the point features; the result is
`(metroStations, busStops)`. -/
def classifyTransitPoints (features : List PointFeature) :
    List TransitStop × List TransitStop :=
  features.foldl transitStep ([], [])

/-- The metro entry a single feature contributes (helper for reasoning
about `classifyTransitPoints`). -/
def metroOf (f : PointFeature) : Option TransitStop :=
  if f.geomType = pointTypeStr then
    (if listContainsSub (joinedPropsLower f) metroStr.toList then
      some (mkStop f metroStr)
     else none)
  else none

/-- The bus entry a single feature contributes (helper for reasoning about
`classifyTransitPoints`). -/
def busOf (f : PointFeature) : Option TransitStop :=
  if f.geomType = pointTypeStr then
    (if listContainsSub (joinedPropsLower f) busStr.toList then
      some (mkStop f busStr)
     else none)
  else none

/-- A syntactically valid micro-market row whose `rating` (5) lies outside
the fixed normalization bounds `2.8..4.7` hard-coded at `integral1.js`
lines 118/133; used to exhibit a normalized value above 1. -/
def mBad : MicroMarket :=
  ⟨"Outlier", 100, 10, 0.5, 1, 1, 1, 5, 3, 3, "t", "d"⟩

/-- A micro-market row whose rating and indices respect the scorer's fixed
normalization bounds; used as a concrete witness table. -/
def wRow : MicroMarket :=
  ⟨"Witness Market", 1, 1, 1, 1, 1, 1, 3, 2, 2, "t", "d"⟩

/-- A one-row table in which every market has the same rent (50). -/
def uniformRentTable : List MicroMarket :=
  [⟨"Uniform", 50, 1, 1, 1, 1, 1, 4, 3, 3, "t", "d"⟩]

def pin110001 : String := "110001"

/-- A polygon feature whose only property value is exactly the pincode. -/
def polyP1 : PolygonFeature := ⟨[("pincode", "110001")]⟩

/-- A second polygon feature whose property value contains the same
pincode as a substring. -/
def polyP2 : PolygonFeature := ⟨[("pincode", "110001, 110002")]⟩

/-- A point feature whose joined, lowercased property text contains both
`"metro"` and `"bus"`. -/
def bothF : PointFeature :=
  ⟨[("name", "Kashmere Gate Metro Bus Stand")], "Point", [77, 28]⟩

lemma JsNum.lt_nan_left (x : JsNum) : JsNum.lt JsNum.nan x = false := by
  cases x <;> rfl

lemma JsNum.lt_fin_fin (a b : ℚ) :
    JsNum.lt (JsNum.fin a) (JsNum.fin b) = decide (a < b) := rfl

lemma JsNum.lt_fin_pinf (a : ℚ) :
    JsNum.lt (JsNum.fin a) JsNum.pinf = true := rfl

/-- Folding `nearStep` over candidates whose distances are all `NaN` never
changes the accumulator: `NaN < min` is always false. -/
lemma foldl_nearStep_nan {α : Type} (dist : α → JsNum) :
    ∀ (l : List α) (acc : Option α × JsNum),
      (∀ s ∈ l, dist s = JsNum.nan) → l.foldl (nearStep dist) acc = acc
  | [], _, _ => rfl
  | s :: t, acc, h => by
    have hs : dist s = JsNum.nan := h s (List.mem_cons_self s t)
    have hstep : nearStep dist acc s = acc := by
      simp [nearStep, hs, JsNum.lt_nan_left]
    rw [List.foldl_cons, hstep]
    exact foldl_nearStep_nan dist t acc
      (fun c hc => h c (List.mem_cons_of_mem _ hc))

/-- Invariant of the `getNearest` scan once the accumulator holds a
candidate `b` with finite running minimum `m`: the fold ends with some
candidate `b'` and finite minimum `m' ≤ m` that bounds every scanned
distance from below; either nothing beat `m` (accumulator unchanged) or
`b'` is a scanned candidate with `m' = dq b' < m` that strictly beat every
candidate before it. -/
lemma nearFold_some {α : Type} (dist : α → JsNum) (dq : α → ℚ) :
    ∀ (l : List α) (b : α) (m : ℚ),
      (∀ s ∈ l, dist s = JsNum.fin (dq s)) →
      ∃ b' m',
        l.foldl (nearStep dist) (some b, JsNum.fin m) =
          (some b', JsNum.fin m') ∧
        m' ≤ m ∧ (∀ c ∈ l, m' ≤ dq c) ∧
        ((b' = b ∧ m' = m) ∨
         (m' = dq b' ∧ m' < m ∧
           ∃ l1 l2, l = l1 ++ b' :: l2 ∧ ∀ c ∈ l1, m' < dq c))
  | [], b, m, _ =>
    ⟨b, m, rfl, le_refl m, by simp, Or.inl ⟨rfl, rfl⟩⟩
  | s :: t, b, m, h => by
    have hs : dist s = JsNum.fin (dq s) := h s (List.mem_cons_self s t)
    have ht : ∀ c ∈ t, dist c = JsNum.fin (dq c) :=
      fun c hc => h c (List.mem_cons_of_mem _ hc)
    by_cases hlt : dq s < m
    · have hstep : nearStep dist (some b, JsNum.fin m) s =
          (some s, JsNum.fin (dq s)) := by
        simp [nearStep, hs, JsNum.lt_fin_fin, hlt]
      obtain ⟨b', m', hfold, hle, hmin, hcases⟩ :=
        nearFold_some dist dq t s (dq s) ht
      refine ⟨b', m', ?_, ?_, ?_, ?_⟩
      · rw [List.foldl_cons, hstep, hfold]
      · exact le_of_lt (lt_of_le_of_lt hle hlt)
      · intro c hc
        rcases List.mem_cons.mp hc with rfl | hc
        · exact hle
        · exact hmin c hc
      · rcases hcases with ⟨hb', hm'⟩ | ⟨hm', hlt', l1, l2, heq, hgt⟩
        · refine Or.inr ⟨?_, ?_, [], t, ?_, by simp⟩
          · rw [hb', hm']
          · rw [hm']; exact hlt
          · rw [hb']; rfl
        · refine Or.inr ⟨hm', lt_of_le_of_lt hle hlt, s :: l1, l2, ?_, ?_⟩
          · rw [heq]; rfl
          · intro c hc
            rcases List.mem_cons.mp hc with rfl | hc
            · exact lt_of_lt_of_le hlt' (le_refl _)
            · exact hgt c hc
    · have hstep : nearStep dist (some b, JsNum.fin m) s =
          (some b, JsNum.fin m) := by
        simp [nearStep, hs, JsNum.lt_fin_fin, hlt]
      obtain ⟨b', m', hfold, hle, hmin, hcases⟩ :=
        nearFold_some dist dq t b m ht
      refine ⟨b', m', ?_, hle, ?_, ?_⟩
      · rw [List.foldl_cons, hstep, hfold]
      · intro c hc
        rcases List.mem_cons.mp hc with rfl | hc
        · exact le_trans hle (not_lt.mp hlt)
        · exact hmin c hc
      · rcases hcases with ⟨hb', hm'⟩ | ⟨hm', hlt', l1, l2, heq, hgt⟩
        · exact Or.inl ⟨hb', hm'⟩
        · refine Or.inr ⟨hm', hlt', s :: l1, l2, ?_, ?_⟩
          · rw [heq]; rfl
          · intro c hc
            rcases List.mem_cons.mp hc with rfl | hc
            · exact lt_of_lt_of_le hlt' (not_lt.mp hlt)
            · exact hgt c hc

/-- C1.  For every reference point and every finite non-empty list of
candidate facilities (modelled by the family `dist` of finite computed
distances, with rational values `dq`), `getNearest` returns a candidate
that minimizes the distance: the returned `distance_km` is the candidate's
own distance, it is `≤` the distance of every candidate in the list, and
the returned candidate is the first-encountered minimizer (every candidate
strictly before it in input order has strictly larger distance). -/
theorem getNearest_minimizes_first {α : Type} (dist : α → JsNum)
    (dq : α → ℚ) (l : List α) (hne : l ≠ [])
    (hfin : ∀ s ∈ l, dist s = JsNum.fin (dq s)) :
    ∃ best, getNearest dist l = some (best, JsNum.fin (dq best)) ∧
      best ∈ l ∧ (∀ c ∈ l, dq best ≤ dq c) ∧
      ∃ l1 l2, l = l1 ++ best :: l2 ∧ ∀ c ∈ l1, dq best < dq c := by
  match l, hne with
  | s :: t, _ =>
    have hs : dist s = JsNum.fin (dq s) := hfin s (List.mem_cons_self s t)
    have ht : ∀ c ∈ t, dist c = JsNum.fin (dq c) :=
      fun c hc => hfin c (List.mem_cons_of_mem _ hc)
    obtain ⟨b', m', hfold, hle, hmin, hcases⟩ :=
      nearFold_some dist dq t s (dq s) ht
    have hstep : nearStep dist ((none : Option α), JsNum.pinf) s =
        (some s, JsNum.fin (dq s)) := by
      simp [nearStep, hs, JsNum.lt_fin_pinf]
    have hmb : m' = dq b' := by
      rcases hcases with ⟨hb', hm'⟩ | ⟨hm', _⟩
      · rw [hb', hm']
      · exact hm'
    have hres : getNearest dist (s :: t) = some (b', JsNum.fin m') := by
      simp only [getNearest, List.isEmpty_cons, List.foldl_cons, hstep,
        hfold]
      rfl
    refine ⟨b', by rw [hres, hmb], ?_, ?_, ?_⟩
    · rcases hcases with ⟨hb', _⟩ | ⟨_, _, l1, l2, heq, _⟩
      · rw [hb']; exact List.mem_cons_self s t
      · exact List.mem_cons_of_mem _ (by rw [heq]; simp)
    · intro c hc
      rcases List.mem_cons.mp hc with rfl | hc
      · rw [← hmb]; exact hle
      · rw [← hmb]; exact hmin c hc
    · rcases hcases with ⟨hb', _⟩ | ⟨_, hlt', l1, l2, heq, hgt⟩
      · exact ⟨[], t, by rw [hb']; rfl, by simp⟩
      · refine ⟨s :: l1, l2, by rw [heq]; rfl, ?_⟩
        intro c hc
        rcases List.mem_cons.mp hc with rfl | hc
        · rw [← hmb]; exact hlt'
        · rw [← hmb]; exact hgt c hc

/-- Witness for C1 at the concrete candidate list `[3, 1, 2]` with
distances given directly by the candidate values. -/
theorem getNearest_minimizes_first_witness :
    (([3, 1, 2] : List ℚ) ≠ [] ∧
      ∀ s ∈ ([3, 1, 2] : List ℚ), JsNum.fin s = JsNum.fin (id s)) ∧
    ∃ best,
      getNearest JsNum.fin ([3, 1, 2] : List ℚ) =
        some (best, JsNum.fin (id best)) ∧
      best ∈ ([3, 1, 2] : List ℚ) ∧
      (∀ c ∈ ([3, 1, 2] : List ℚ), id best ≤ id c) ∧
      ∃ l1 l2, ([3, 1, 2] : List ℚ) = l1 ++ best :: l2 ∧
        ∀ c ∈ l1, id best < id c :=
  ⟨⟨by simp, fun _ _ => rfl⟩,
   getNearest_minimizes_first JsNum.fin id [3, 1, 2] (by simp)
     (fun _ _ => rfl)⟩

/-- C6.  `getNearest` on the empty candidate list returns the "none found"
value; the function is total (never throws). -/
theorem getNearest_empty {α : Type} (dist : α → JsNum) :
    getNearest dist ([] : List α) = none := rfl

/-- C9.  For every non-empty candidate list whose computed distances are
all `NaN` (e.g. when a reference coordinate is `NaN`), `getNearest` returns
`null`: the strict `<` against the running minimum never succeeds for
`NaN`, so `best` is never set — a `null` result does not occur only for
empty input. -/
theorem getNearest_all_nan {α : Type} (dist : α → JsNum) (l : List α)
    (hne : l ≠ []) (hnan : ∀ s ∈ l, dist s = JsNum.nan) :
    getNearest dist l = none := by
  match l, hne with
  | s :: t, _ =>
    have hfold : (s :: t).foldl (nearStep dist)
        ((none : Option α), JsNum.pinf) = (none, JsNum.pinf) :=
      foldl_nearStep_nan dist (s :: t) _ hnan
    simp only [getNearest, List.isEmpty_cons, hfold]
    rfl

/-- Witness for C9 at a concrete one-element candidate list with `NaN`
distance. -/
theorem getNearest_all_nan_witness :
    (([0] : List ℚ) ≠ [] ∧
      ∀ s ∈ ([0] : List ℚ), (fun _ : ℚ => JsNum.nan) s = JsNum.nan) ∧
    getNearest (fun _ : ℚ => JsNum.nan) ([0] : List ℚ) = none :=
  ⟨⟨by simp, fun _ _ => rfl⟩,
   getNearest_all_nan (fun _ : ℚ => JsNum.nan) [0] (by simp)
     (fun _ _ => rfl)⟩

/-- The haversine intermediate `a` is invariant under swapping the two
points: the latitude and longitude differences negate, `sin²` absorbs the
sign, and the cosine product commutes. -/
lemma haverA_symm (lat1 lon1 lat2 lon2 : ℝ) :
    haverA lat2 lon2 lat1 lon1 = haverA lat1 lon1 lat2 lon2 := by
  unfold haverA toRad
  have h1 : (lat1 - lat2) * Real.pi / 180 / 2 =
      -((lat2 - lat1) * Real.pi / 180 / 2) := by ring
  have h2 : (lon1 - lon2) * Real.pi / 180 / 2 =
      -((lon2 - lon1) * Real.pi / 180 / 2) := by ring
  rw [h1, h2, Real.sin_neg, Real.sin_neg]
  ring

/-- C7.  `distanceKm` is symmetric: for all coordinates the two orders give
exactly the same real value, hence agree within the tolerance `1e-9`. -/
theorem distanceKm_symm (lat1 lon1 lat2 lon2 : ℝ) :
    distanceKm lat1 lon1 lat2 lon2 = distanceKm lat2 lon2 lat1 lon1 ∧
    |distanceKm lat1 lon1 lat2 lon2 - distanceKm lat2 lon2 lat1 lon1| ≤
      1e-9 := by
  have h : distanceKm lat2 lon2 lat1 lon1 = distanceKm lat1 lon1 lat2 lon2 := by
    unfold distanceKm
    rw [haverA_symm]
  refine ⟨h.symm, ?_⟩
  rw [h, sub_self, abs_zero]
  norm_num

/-- Inserting an element that satisfies `p`, and that `r`-precedes every
element satisfying `p`, commutes with `filter p` by putting the element in
front. -/
lemma orderedInsert_filter_pos {α : Type} (r : α → α → Prop)
    [DecidableRel r] (p : α → Bool) (x : α) (hx : p x = true)
    (h : ∀ b, p b = true → r x b) :
    ∀ l : List α, (List.orderedInsert r x l).filter p = x :: l.filter p
  | [] => by simp [hx]
  | b :: l => by
    by_cases hr : r x b
    · rw [List.orderedInsert, if_pos hr, List.filter_cons, if_pos hx]
    · rw [List.orderedInsert, if_neg hr, List.filter_cons]
      by_cases hb : p b
      · exact absurd (h b hb) hr
      · rw [if_neg (by simp [hb]), orderedInsert_filter_pos r p x hx h l,
          List.filter_cons, if_neg (by simp [hb])]

/-- Inserting an element that fails `p` leaves `filter p` unchanged. -/
lemma orderedInsert_filter_neg {α : Type} (r : α → α → Prop)
    [DecidableRel r] (p : α → Bool) (x : α) (hx : p x = false) :
    ∀ l : List α, (List.orderedInsert r x l).filter p = l.filter p
  | [] => by simp [hx]
  | b :: l => by
    by_cases hr : r x b
    · rw [List.orderedInsert, if_pos hr, List.filter_cons,
        if_neg (by simp [hx])]
    · rw [List.orderedInsert, if_neg hr, List.filter_cons,
        orderedInsert_filter_neg r p x hx l, ← List.filter_cons]

/-- Stability of insertion sort, in filtered form: elements inside one
`r`-equivalence class described by `p` keep their input order. -/
lemma insertionSort_filter {α : Type} (r : α → α → Prop) [DecidableRel r]
    (p : α → Bool) (hp : ∀ x y, p x = true → p y = true → r x y) :
    ∀ l : List α, (List.insertionSort r l).filter p = l.filter p
  | [] => rfl
  | x :: l => by
    rw [List.insertionSort]
    by_cases hx : p x
    · rw [orderedInsert_filter_pos r p x hx (fun b hb => hp x b hx hb),
        insertionSort_filter r p hp l, List.filter_cons, if_pos hx]
    · rw [orderedInsert_filter_neg r p x (by simp [hx]),
        insertionSort_filter r p hp l, List.filter_cons,
        if_neg (by simp [hx])]

/-- C2.  For every business category present in the weight table and every
markets table, `calculateScores` returns a sequence sorted in descending
order of `totalScore` (`scoreGE`), and entries with equal `totalScore` keep
their relative order from the input table: filtering the result to any one
total-score value gives exactly the corresponding filtering of the
pre-sort scored table. -/
theorem calculateScores_sorted_stable (data : List MicroMarket)
    (bt : String) (w : Weights)
    (h : List.lookup bt businessCategories = some w) :
    ∃ res, calculateScoresOn data bt = some res ∧
      List.Sorted scoreGE res ∧
      ∀ t : ℚ, res.filter (fun m => decide (m.totalScore = t)) =
        (scoredMarkets data w).filter
          (fun m => decide (m.totalScore = t)) := by
  refine ⟨List.insertionSort scoreGE (scoredMarkets data w), ?_, ?_, ?_⟩
  · rw [calculateScoresOn, h]
  · exact List.sorted_insertionSort scoreGE _
  · intro t
    refine insertionSort_filter scoreGE _ (fun x y hx hy => ?_) _
    have hx' : x.totalScore = t := of_decide_eq_true hx
    have hy' : y.totalScore = t := of_decide_eq_true hy
    unfold scoreGE
    rw [hx', hy']

/-- Witness for C2 at the concrete category `"Grocery"` on the program's
own table. -/
theorem calculateScores_sorted_stable_witness :
    List.lookup ("Grocery") businessCategories =
      some ⟨0.2, 0.3, 0.35, 0.15⟩ ∧
    ∃ res, calculateScoresOn microMarketData ("Grocery") = some res ∧
      List.Sorted scoreGE res ∧
      ∀ t : ℚ, res.filter (fun m => decide (m.totalScore = t)) =
        (scoredMarkets microMarketData ⟨0.2, 0.3, 0.35, 0.15⟩).filter
          (fun m => decide (m.totalScore = t)) :=
  ⟨rfl, calculateScores_sorted_stable microMarketData ("Grocery")
    ⟨0.2, 0.3, 0.35, 0.15⟩ rfl⟩

/-- On every key present in the weight table, the full-access model agrees
with the own-property model used by the sortedness/stability theorem. -/
lemma calculateScoresJs_own (data : List MicroMarket) (bt : String)
    (w : Weights) (h : List.lookup bt businessCategories = some w) :
    calculateScoresJs data bt =
      ScoresOutcome.scored (List.insertionSort scoreGE (scoredMarkets data w)) := by
  have hacc : businessCategoriesAccess bt = JsProp.own w := by
    unfold businessCategoriesAccess
    rw [h]
  unfold calculateScoresJs
  rw [hacc]

/-- Counterexample to C3 as stated: `"toString"` is absent from the weight
table, yet `calculateScores` does not signal the unknown-category outcome —
the bare property access finds the truthy inherited
`Object.prototype.toString`, the falsiness guard does not fire, and a
`NaN`-scored list of all the markets is returned. -/
theorem calculateScores_prototype_leak :
    List.lookup ("toString") businessCategories = none ∧
    calculateScoresJs microMarketData ("toString") =
      ScoresOutcome.nanScored microMarketData ∧
    calculateScoresJs microMarketData ("toString") ≠
      ScoresOutcome.nullResult := by
  refine ⟨rfl, rfl, fun h => ?_⟩
  exact ScoresOutcome.noConfusion
    ((rfl : calculateScoresJs microMarketData ("toString") =
        ScoresOutcome.nanScored microMarketData).symm.trans h)

/-- C3 (amended).  For every business-category string absent from the
weight table **and not naming an `Object.prototype` member**,
`calculateScores` signals the unknown-category outcome (`null`) rather
than a scored list; for an absent string that does name a prototype
member the truthy inherited function passes the guard and a `NaN`-scored
list is returned instead; lookup of own keys is exact including case:
`"grocery"` is absent even though `"Grocery"` is present. -/
theorem calculateScores_absent_category :
    (∀ (data : List MicroMarket) (bt : String),
      List.lookup bt businessCategories = none →
        bt ∉ objectPrototypeKeys →
        calculateScoresJs data bt = ScoresOutcome.nullResult) ∧
    (∀ (data : List MicroMarket) (bt : String),
      List.lookup bt businessCategories = none →
        bt ∈ objectPrototypeKeys →
        calculateScoresJs data bt = ScoresOutcome.nanScored data) ∧
    List.lookup ("grocery") businessCategories = none ∧
    (List.lookup ("Grocery") businessCategories).isSome = true := by
  refine ⟨fun data bt h hnot => ?_, fun data bt h hmem => ?_, rfl, rfl⟩
  · have hacc : businessCategoriesAccess bt = JsProp.undef := by
      unfold businessCategoriesAccess
      rw [h]
      show (if bt ∈ objectPrototypeKeys then JsProp.inheritedFn
        else JsProp.undef) = JsProp.undef
      exact if_neg hnot
    unfold calculateScoresJs
    rw [hacc]
  · have hacc : businessCategoriesAccess bt = JsProp.inheritedFn := by
      unfold businessCategoriesAccess
      rw [h]
      show (if bt ∈ objectPrototypeKeys then JsProp.inheritedFn
        else JsProp.undef) = JsProp.inheritedFn
      exact if_pos hmem
    unfold calculateScoresJs
    rw [hacc]

/-- Witness for the amended C3 at the concrete case-differing category
`"grocery"`, which names no prototype member. -/
theorem calculateScores_absent_category_witness :
    (List.lookup ("grocery") businessCategories = none ∧
      ("grocery") ∉ objectPrototypeKeys) ∧
    calculateScoresJs microMarketData ("grocery") =
      ScoresOutcome.nullResult :=
  ⟨⟨rfl, by decide⟩,
   calculateScores_absent_category.1 microMarketData ("grocery") rfl
     (by decide)⟩

lemma foldl_min_le_init : ∀ (l : List ℚ) (a : ℚ), l.foldl min a ≤ a
  | [], a => le_refl a
  | b :: l, a =>
    le_trans (foldl_min_le_init l (min a b)) (min_le_left a b)

lemma foldl_min_le_mem :
    ∀ (l : List ℚ) (a b : ℚ), b ∈ l → l.foldl min a ≤ b
  | [], _, _, hb => absurd hb (by simp)
  | c :: l, a, b, hb => by
    rcases List.mem_cons.mp hb with rfl | hb
    · exact le_trans (foldl_min_le_init l (min a b)) (min_le_right a b)
    · exact foldl_min_le_mem l (min a c) b hb

lemma le_foldl_max_init : ∀ (l : List ℚ) (a : ℚ), a ≤ l.foldl max a
  | [], a => le_refl a
  | b :: l, a =>
    le_trans (le_max_left a b) (le_foldl_max_init l (max a b))

lemma mem_le_foldl_max :
    ∀ (l : List ℚ) (a b : ℚ), b ∈ l → b ≤ l.foldl max a
  | [], _, _, hb => absurd hb (by simp)
  | c :: l, a, b, hb => by
    rcases List.mem_cons.mp hb with rfl | hb
    · exact le_trans (le_max_right a b) (le_foldl_max_init l (max a b))
    · exact mem_le_foldl_max l (max a c) b hb

/-- The table minimum of an attribute bounds the attribute of every member
from below. -/
lemma minOf_le (data : List MicroMarket) (f : MicroMarket → ℚ)
    (m : MicroMarket) (hm : m ∈ data) : minOf data f ≤ f m := by
  match data, hm with
  | x :: t, hm =>
    rcases List.mem_cons.mp hm with rfl | hm
    · exact foldl_min_le_init (t.map f) (f m)
    · exact foldl_min_le_mem (t.map f) (f x) (f m)
        (List.mem_map_of_mem f hm)

/-- The table maximum of an attribute bounds the attribute of every member
from above. -/
lemma le_maxOf (data : List MicroMarket) (f : MicroMarket → ℚ)
    (m : MicroMarket) (hm : m ∈ data) : f m ≤ maxOf data f := by
  match data, hm with
  | x :: t, hm =>
    rcases List.mem_cons.mp hm with rfl | hm
    · exact le_foldl_max_init (t.map f) (f m)
    · exact mem_le_foldl_max (t.map f) (f x) (f m)
        (List.mem_map_of_mem f hm)

/-- `normalize` lands in `[0,1]` whenever the value lies between the given
bounds (both in the direct and in the inverse direction). -/
lemma normalize_bounds (v mn mx : ℚ) (inv : Bool) (h1 : mn ≤ v)
    (h2 : v ≤ mx) :
    0 ≤ normalize v mn mx inv ∧ normalize v mn mx inv ≤ 1 := by
  unfold normalize
  by_cases he : mx = mn
  · rw [if_pos he]
    norm_num
  · rw [if_neg he]
    have hlt : mn < mx := lt_of_le_of_ne (le_trans h1 h2) (Ne.symm he)
    have hpos : (0 : ℚ) < mx - mn := sub_pos.mpr hlt
    have hx0 : 0 ≤ (v - mn) / (mx - mn) :=
      div_nonneg (sub_nonneg.mpr h1) hpos.le
    have hx1 : (v - mn) / (mx - mn) ≤ 1 :=
      (div_le_one hpos).mpr (by linarith)
    cases inv
    · simpa using ⟨hx0, hx1⟩
    · constructor
      · rw [if_pos rfl]
        linarith
      · rw [if_pos rfl]
        linarith

/-- Counterexample to C4 as stated: over an arbitrary markets table the
rating is normalized against the fixed bounds `2.8..4.7`, so a table whose
only market has rating 5 yields a normalized value above 1. -/
theorem normalized_value_above_one :
    1 < ratingNorm mBad ∧ ratingNorm mBad ∈ normalizedValues [mBad] mBad := by
  constructor
  · norm_num [ratingNorm, normalize, mBad]
  · simp [normalizedValues]

/-- C4 (amended).  For every markets table and member market whose rating
lies within the scorer's fixed bounds `2.8..4.7` and whose college and
corporate indices lie within the fixed bounds `1..5` (as the data model
prescribes and the program's fixed table satisfies), every normalized
attribute value computed during scoring lies in `[0,1]`; the attributes
normalized against the table's own min/max need no side condition beyond
membership. -/
theorem normalizedValues_bounds (data : List MicroMarket)
    (m : MicroMarket) (hm : m ∈ data)
    (hr1 : (2.8 : ℚ) ≤ m.rating) (hr2 : m.rating ≤ 4.7)
    (hc1 : (1 : ℚ) ≤ m.college) (hc2 : m.college ≤ 5)
    (hk1 : (1 : ℚ) ≤ m.corporate) (hk2 : m.corporate ≤ 5) :
    ∀ v ∈ normalizedValues data m, 0 ≤ v ∧ v ≤ 1 := by
  intro v hv
  simp only [normalizedValues, List.mem_cons, List.mem_singleton,
    List.not_mem_nil, or_false] at hv
  rcases hv with rfl | rfl | rfl | rfl | rfl | rfl | rfl | rfl | rfl
  · exact normalize_bounds _ _ _ _ hc1 hc2
  · exact normalize_bounds _ _ _ _ (minOf_le data _ m hm)
      (le_maxOf data _ m hm)
  · exact normalize_bounds _ _ _ _ (minOf_le data _ m hm)
      (le_maxOf data _ m hm)
  · exact normalize_bounds _ _ _ _ hr1 hr2
  · exact normalize_bounds _ _ _ _ (minOf_le data _ m hm)
      (le_maxOf data _ m hm)
  · exact normalize_bounds _ _ _ _ (minOf_le data _ m hm)
      (le_maxOf data _ m hm)
  · exact normalize_bounds _ _ _ _ (minOf_le data _ m hm)
      (le_maxOf data _ m hm)
  · exact normalize_bounds _ _ _ _ (minOf_le data _ m hm)
      (le_maxOf data _ m hm)
  · exact normalize_bounds _ _ _ _ hk1 hk2

/-- Witness for the amended C4 at a concrete one-row table within the
fixed bounds. -/
theorem normalizedValues_bounds_witness :
    (wRow ∈ [wRow] ∧ (2.8 : ℚ) ≤ wRow.rating ∧ wRow.rating ≤ 4.7 ∧
      (1 : ℚ) ≤ wRow.college ∧ wRow.college ≤ 5 ∧
      (1 : ℚ) ≤ wRow.corporate ∧ wRow.corporate ≤ 5) ∧
    ∀ v ∈ normalizedValues [wRow] wRow, 0 ≤ v ∧ v ≤ 1 :=
  ⟨⟨List.mem_singleton.mpr rfl, by norm_num [wRow], by norm_num [wRow],
    by norm_num [wRow], by norm_num [wRow], by norm_num [wRow],
    by norm_num [wRow]⟩,
   normalizedValues_bounds [wRow] wRow (List.mem_singleton.mpr rfl)
     (by norm_num [wRow]) (by norm_num [wRow]) (by norm_num [wRow])
     (by norm_num [wRow]) (by norm_num [wRow]) (by norm_num [wRow])⟩

lemma foldl_min_const :
    ∀ (l : List ℚ) (a : ℚ), (∀ b ∈ l, b = a) → l.foldl min a = a
  | [], _, _ => rfl
  | b :: l, a, h => by
    have hb : b = a := h b (List.mem_cons_self b l)
    rw [List.foldl_cons, hb, min_self]
    exact foldl_min_const l a (fun c hc => h c (List.mem_cons_of_mem _ hc))

lemma foldl_max_const :
    ∀ (l : List ℚ) (a : ℚ), (∀ b ∈ l, b = a) → l.foldl max a = a
  | [], _, _ => rfl
  | b :: l, a, h => by
    have hb : b = a := h b (List.mem_cons_self b l)
    rw [List.foldl_cons, hb, max_self]
    exact foldl_max_const l a (fun c hc => h c (List.mem_cons_of_mem _ hc))

/-- On a table where an attribute is constant, its table minimum is that
constant. -/
lemma minOf_const (data : List MicroMarket) (f : MicroMarket → ℚ) (r : ℚ)
    (h : ∀ m ∈ data, f m = r) (hne : data ≠ []) : minOf data f = r := by
  match data, hne with
  | x :: t, _ =>
    have hx : f x = r := h x (List.mem_cons_self x t)
    have hdef : minOf (x :: t) f = (t.map f).foldl min (f x) := rfl
    rw [hdef, hx]
    refine foldl_min_const (t.map f) r ?_
    intro b hb
    obtain ⟨c, hc, rfl⟩ := List.mem_map.mp hb
    exact h c (List.mem_cons_of_mem _ hc)

/-- On a table where an attribute is constant, its table maximum is that
constant. -/
lemma maxOf_const (data : List MicroMarket) (f : MicroMarket → ℚ) (r : ℚ)
    (h : ∀ m ∈ data, f m = r) (hne : data ≠ []) : maxOf data f = r := by
  match data, hne with
  | x :: t, _ =>
    have hx : f x = r := h x (List.mem_cons_self x t)
    have hdef : maxOf (x :: t) f = (t.map f).foldl max (f x) := rfl
    rw [hdef, hx]
    refine foldl_max_const (t.map f) r ?_
    intro b hb
    obtain ⟨c, hc, rfl⟩ := List.mem_map.mp hb
    exact h c (List.mem_cons_of_mem _ hc)

/-- C8.  `normalize` returns exactly `0.5` whenever `max == min` (for both
directions of the flag); when `max ≠ min` the denominator `max - min` of
the division it then evaluates is non-zero; and on any table in which all
markets have identical rent, every market's rent-normalized contribution is
exactly `0.5`. -/
theorem normalize_degenerate_half :
    (∀ (value mn : ℚ) (inverse : Bool), normalize value mn mn inverse = 0.5) ∧
    (∀ (value mn mx : ℚ) (inverse : Bool), mx ≠ mn →
      mx - mn ≠ 0 ∧
      normalize value mn mx inverse =
        (if inverse then 1 - (value - mn) / (mx - mn)
         else (value - mn) / (mx - mn))) ∧
    (∀ (data : List MicroMarket) (r : ℚ), (∀ m ∈ data, m.rent = r) →
      ∀ m ∈ data, rentNorm data m = 0.5) := by
  refine ⟨fun v mn inv => by rw [normalize, if_pos rfl],
    fun v mn mx inv hne => ⟨sub_ne_zero.mpr hne, by rw [normalize, if_neg hne]⟩,
    ?_⟩
  intro data r h m hm
  have hne : data ≠ [] := by
    rintro rfl
    exact absurd hm (by simp)
  have hmin : minOf data (·.rent) = r := minOf_const data _ r h hne
  have hmax : maxOf data (·.rent) = r := maxOf_const data _ r h hne
  rw [rentNorm, hmin, hmax, normalize, if_pos rfl]

/-- Witness for C8 at a concrete table whose single market has rent 50. -/
theorem normalize_degenerate_half_witness :
    (∀ m ∈ uniformRentTable, m.rent = 50) ∧
    ∀ m ∈ uniformRentTable, rentNorm uniformRentTable m = 0.5 :=
  ⟨fun m hm => by
      rcases List.mem_singleton.mp hm with rfl
      rfl,
   normalize_degenerate_half.2.2 uniformRentTable 50
     (fun m hm => by
       rcases List.mem_singleton.mp hm with rfl
       rfl)⟩

/-- If no polygon of the list matches, the scan's fold returns its
accumulator unchanged. -/
lemma findFold_none (pincode : String) :
    ∀ (polys : List PolygonFeature) (acc : Option PolygonFeature),
      (∀ f ∈ polys, matchesPincode pincode f = false) →
      polys.foldl
        (fun found layer =>
          if matchesPincode pincode layer then some layer else found)
        acc = acc
  | [], _, _ => rfl
  | p :: t, acc, h => by
    have hp : matchesPincode pincode p = false := h p (List.mem_cons_self p t)
    rw [List.foldl_cons, if_neg (by simp [hp])]
    exact findFold_none pincode t acc
      (fun f hf => h f (List.mem_cons_of_mem _ hf))

/-- Once the scan's accumulator holds a layer, it holds a layer forever. -/
lemma findFold_isSome (pincode : String) :
    ∀ (polys : List PolygonFeature) (g : PolygonFeature),
      ∃ g', polys.foldl
        (fun found layer =>
          if matchesPincode pincode layer then some layer else found)
        (some g) = some g'
  | [], g => ⟨g, rfl⟩
  | p :: t, g => by
    rw [List.foldl_cons]
    by_cases hp : matchesPincode pincode p
    · rw [if_pos hp]
      exact findFold_isSome pincode t p
    · rw [if_neg hp]
      exact findFold_isSome pincode t g

/-- If some member of the list matches, the scan's fold ends on a `some`
result, whatever the accumulator. -/
lemma findFold_some_of_match (pincode : String) :
    ∀ (polys : List PolygonFeature) (acc : Option PolygonFeature)
      (f : PolygonFeature), f ∈ polys → matchesPincode pincode f = true →
      ∃ g, polys.foldl
        (fun found layer =>
          if matchesPincode pincode layer then some layer else found)
        acc = some g
  | p :: t, acc, f, hf, hmatch => by
    rw [List.foldl_cons]
    rcases List.mem_cons.mp hf with rfl | hf
    · rw [if_pos (by simp [hmatch])]
      exact findFold_isSome pincode t f
    · exact findFold_some_of_match pincode t _ f hf hmatch

/-- If the scan's fold ends on `some f`, then either `f` is a matching
member after which nothing matches, or nothing in the list matches and the
accumulator was already `some f`. -/
lemma findFold_some_spec (pincode : String) :
    ∀ (polys : List PolygonFeature) (acc : Option PolygonFeature)
      (f : PolygonFeature),
      polys.foldl
        (fun found layer =>
          if matchesPincode pincode layer then some layer else found)
        acc = some f →
      (matchesPincode pincode f = true ∧
        ∃ l1 l2, polys = l1 ++ f :: l2 ∧
          ∀ g ∈ l2, matchesPincode pincode g = false) ∨
      (acc = some f ∧ ∀ g ∈ polys, matchesPincode pincode g = false)
  | [], _, _, h => Or.inr ⟨h, by simp⟩
  | p :: t, acc, f, h => by
    rw [List.foldl_cons] at h
    rcases findFold_some_spec pincode t _ f h with
      ⟨hm, l1, l2, heq, hafter⟩ | ⟨hacc, hnone⟩
    · exact Or.inl ⟨hm, p :: l1, l2, by rw [heq]; rfl, hafter⟩
    · by_cases hp : matchesPincode pincode p
      · rw [if_pos hp] at hacc
        have hpf : p = f := Option.some.inj hacc
        subst hpf
        exact Or.inl ⟨by simpa using hp, [], t, rfl, hnone⟩
      · rw [if_neg hp] at hacc
        refine Or.inr ⟨hacc, ?_⟩
        intro g hg
        rcases List.mem_cons.mp hg with rfl | hg
        · simpa using hp
        · exact hnone g hg

/-- Counterexample to C5 as stated: with two polygon features that both
match the pincode, `findPolygonForPincode` returns the second one, not the
first (the `return` inside the `eachLayer` callback does not stop the
iteration, so later matches overwrite earlier ones). -/
theorem findPolygon_not_first :
    matchesPincode pin110001 polyP1 = true ∧
    matchesPincode pin110001 polyP2 = true ∧
    polyP1 ≠ polyP2 ∧
    findPolygonForPincode pin110001 [polyP1, polyP2] = some polyP2 := by
  refine ⟨by decide, by decide, by decide, by decide⟩

/-- C5 (amended).  `findPolygonForPincode` scans the polygons in order and,
within each, its attribute values; a polygon matches when the trimmed
string form of some attribute value equals the pincode exactly or contains
it as a substring (the definition of `matchesPincode`); the scan returns
`none` exactly when no polygon matches, and otherwise returns the **last**
matching polygon in iteration order: the returned polygon matches and no
polygon after it matches. -/
theorem findPolygon_last_match (pincode : String)
    (polys : List PolygonFeature) :
    (findPolygonForPincode pincode polys = none ↔
      ∀ f ∈ polys, matchesPincode pincode f = false) ∧
    (∀ f, findPolygonForPincode pincode polys = some f →
      matchesPincode pincode f = true ∧
      ∃ l1 l2, polys = l1 ++ f :: l2 ∧
        ∀ g ∈ l2, matchesPincode pincode g = false) := by
  constructor
  · constructor
    · intro hnone
      by_contra hex
      push_neg at hex
      obtain ⟨f, hf, hmatch⟩ := hex
      have hmatch' : matchesPincode pincode f = true := by
        revert hmatch
        cases matchesPincode pincode f <;> simp
      obtain ⟨g, hg⟩ :=
        findFold_some_of_match pincode polys none f hf hmatch'
      rw [findPolygonForPincode] at hnone
      rw [hnone] at hg
      exact Option.noConfusion hg
    · intro hall
      exact findFold_none pincode polys none hall
  · intro f hsome
    rw [findPolygonForPincode] at hsome
    rcases findFold_some_spec pincode polys none f hsome with
      h | ⟨habs, _⟩
    · exact h
    · exact Option.noConfusion habs

/-- Witness for the amended C5 at the concrete two-polygon list: the
result is the later matching polygon and nothing after it matches. -/
theorem findPolygon_last_match_witness :
    findPolygonForPincode pin110001 [polyP1, polyP2] = some polyP2 ∧
    (matchesPincode pin110001 polyP2 = true ∧
      ∃ l1 l2, [polyP1, polyP2] = l1 ++ polyP2 :: l2 ∧
        ∀ g ∈ l2, matchesPincode pin110001 g = false) :=
  ⟨by decide,
   (findPolygon_last_match pin110001 [polyP1, polyP2]).2 polyP2 (by decide)⟩

/-- The transit classification fold appends, to any accumulator, exactly
the metro entries and the bus entries its features contribute. -/
lemma transit_fold_spec :
    ∀ (features : List PointFeature)
      (acc : List TransitStop × List TransitStop),
      features.foldl transitStep acc =
        (acc.1 ++ features.filterMap metroOf,
         acc.2 ++ features.filterMap busOf)
  | [], acc => by simp
  | f :: t, acc => by
    rw [List.foldl_cons, transit_fold_spec t (transitStep acc f)]
    by_cases hg : f.geomType = pointTypeStr
    · by_cases hm : listContainsSub (joinedPropsLower f) metroStr.data = true
      · by_cases hb : listContainsSub (joinedPropsLower f) busStr.data = true
        · simp [transitStep, metroOf, busOf, hg, hm, hb]
        · simp [transitStep, metroOf, busOf, hg, hm, hb]
      · by_cases hb : listContainsSub (joinedPropsLower f) busStr.data = true
        · simp [transitStep, metroOf, busOf, hg, hm, hb]
        · simp [transitStep, metroOf, busOf, hg, hm, hb]
    · simp [transitStep, metroOf, busOf, hg]

/-- C10.  Facility classification is not mutually exclusive: every point
feature whose lowercased joined property text contains both `"metro"` and
`"bus"` contributes its stop to both the metro-station list and the
bus-stop list of `classifyTransitPoints`. -/
theorem classify_both_lists (features : List PointFeature)
    (f : PointFeature) (hf : f ∈ features)
    (hg : f.geomType = pointTypeStr)
    (hm : listContainsSub (joinedPropsLower f) metroStr.toList = true)
    (hb : listContainsSub (joinedPropsLower f) busStr.toList = true) :
    mkStop f metroStr ∈ (classifyTransitPoints features).1 ∧
    mkStop f busStr ∈ (classifyTransitPoints features).2 := by
  rw [classifyTransitPoints, transit_fold_spec features ([], [])]
  simp only [List.nil_append]
  have hm' : listContainsSub (joinedPropsLower f) metroStr.data = true := hm
  have hb' : listContainsSub (joinedPropsLower f) busStr.data = true := hb
  constructor
  · exact List.mem_filterMap.mpr ⟨f, hf, by simp [metroOf, hg, hm']⟩
  · exact List.mem_filterMap.mpr ⟨f, hf, by simp [busOf, hg, hb']⟩

/-- Witness for C10 at a concrete point feature whose text contains both
keywords. -/
theorem classify_both_lists_witness :
    (bothF ∈ [bothF] ∧ bothF.geomType = pointTypeStr ∧
      listContainsSub (joinedPropsLower bothF) metroStr.toList = true ∧
      listContainsSub (joinedPropsLower bothF) busStr.toList = true) ∧
    (mkStop bothF metroStr ∈ (classifyTransitPoints [bothF]).1 ∧
      mkStop bothF busStr ∈ (classifyTransitPoints [bothF]).2) :=
  ⟨⟨List.mem_singleton.mpr rfl, rfl, by decide, by decide⟩,
   classify_both_lists [bothF] bothF (List.mem_singleton.mpr rfl) rfl
     (by decide) (by decide)⟩

end MapsReimagined
